import Mathlib

/-!
Verification development for the FIN public market-data service
(`src/public_api.py` and its entry points). Python strings are embedded as
lists of Unicode code points (`PyStr`), pandas data frames as Lean lists of
record structures, and the `cachetools.TTLCache` as an insertion-ordered
association list carrying expiry instants. Behaviour that the design
document attributes to a revision of the service that is not part of the
checked-in sources (the raw chart-endpoint fetcher) is modelled from the
design document and marked as such in the corresponding doc comments.
-/

set_option maxRecDepth 20000

/-- Python strings, embedded as lists of Unicode code points. -/
abbrev PyStr := List Nat

/-- Code points of a Lean string literal; used to spell concrete inputs. -/
def strToCodes (s : String) : PyStr := s.data.map Char.toNat

/-- Embeds the whitespace test used by Python `str.strip` (ASCII range). -/
def isSpaceCode (c : Nat) : Bool :=
  decide (c = 32) || decide (c = 9) || decide (c = 10) || decide (c = 13) ||
  decide (c = 11) || decide (c = 12)

/-- Embeds Python `str.upper` on one code point (ASCII letters). -/
def upperCode (c : Nat) : Nat := if 97 ≤ c ∧ c ≤ 122 then c - 32 else c

/-- Left part of Python `str.strip`. -/
def lstrip (s : PyStr) : PyStr := s.dropWhile isSpaceCode

/-- Right part of Python `str.strip`. -/
def rstrip (s : PyStr) : PyStr := (s.reverse.dropWhile isSpaceCode).reverse

/-- Embeds Python `str.strip`. -/
def pyStrip (s : PyStr) : PyStr := rstrip (lstrip s)

/-- Embeds Python `str.upper`. -/
def pyUpper (s : PyStr) : PyStr := s.map upperCode

/-- Embeds Python `str.endswith`. -/
def pyEndsWith (suf s : PyStr) : Bool := decide (suf <:+ s)

/-- Embeds the test `s[:1].isdigit()` from `_symbol_norm`. -/
def firstIsDigit : PyStr → Bool
  | [] => false
  | c :: _ => decide (48 ≤ c ∧ c ≤ 57)

/-- Code points of the suffix `.TW`. -/
def dotTW : PyStr := [46, 84, 87]

/-- Code points of the suffix `.TWO`. -/
def dotTWO : PyStr := [46, 84, 87, 79]

/-- Embeds `_symbol_norm` from `src/public_api.py`: strip, uppercase, keep a
`.TW`/`.TWO` suffix, append `.TW` when the first character is a digit. -/
def symbolNorm (symbol : PyStr) : PyStr :=
  let s := pyUpper (pyStrip symbol)
  if pyEndsWith dotTW s || pyEndsWith dotTWO s then s
  else if firstIsDigit s then s ++ dotTW
  else s

/-- Follows the words of the design document (§4.1), written independently of
the code: trim and uppercase; return unchanged when a recognized exchange
suffix is present; append the default regional suffix when the first
character is a digit; otherwise return unchanged. -/
def normalizeSpec (raw : PyStr) : PyStr :=
  let t := pyUpper (pyStrip raw)
  if pyEndsWith dotTW t || pyEndsWith dotTWO t then t
  else
    match t with
    | [] => t
    | c :: _ => if decide (48 ≤ c ∧ c ≤ 57) then t ++ dotTW else t

/-- Calendar dates, the richer value kept inside cached data frames
(pandas timestamps at day resolution). -/
structure Date where
  year : Nat
  month : Nat
  day : Nat
deriving DecidableEq

/-- Chronological order on dates, as pandas compares day-resolution
timestamps (lexicographic on year, month, day). -/
def Date.le (a b : Date) : Prop :=
  a.year < b.year ∨
    (a.year = b.year ∧ (a.month < b.month ∨ (a.month = b.month ∧ a.day ≤ b.day)))

instance (a b : Date) : Decidable (Date.le a b) := by
  unfold Date.le; infer_instance

/-- Code points of the decimal digits of a natural number. -/
def natCodes (n : Nat) : PyStr := (Nat.toDigits 10 n).map Char.toNat

/-- Left-pads a code-point string with zeros to the given width. -/
def padZero (w : Nat) (s : PyStr) : PyStr := List.replicate (w - s.length) 48 ++ s

/-- Embeds `strftime` with format `%Y-%m-%d` as used at the handler
boundary. -/
def fmtDate (d : Date) : PyStr :=
  padZero 4 (natCodes d.year) ++ [45] ++ padZero 2 (natCodes d.month) ++ [45] ++
    padZero 2 (natCodes d.day)

/-- One row of the OHLCV data frame produced by `_fetch_ohlcv`. -/
structure Bar where
  date : Date
  openPrice : Rat
  high : Rat
  low : Rat
  close : Rat
  adjClose : Rat
  volume : Rat
deriving DecidableEq

/-- One row of the dividend data frame produced by `_fetch_dividends`. -/
structure DivRecord where
  date : Date
  cash : Rat
deriving DecidableEq

/-- One row of the split data frame produced by `_fetch_splits`. -/
structure SplitRecord where
  date : Date
  ratio : Rat
deriving DecidableEq

/-- Embeds `_fetch_dividends` from `src/public_api.py`. The argument
`events` stands for the full dividend history delivered by `tk.dividends`;
the function mirrors the empty check and the client-side filtering
`(df.date >= start) & (df.date <= end)`. -/
def fetchDividends (events : List DivRecord) (startD endD : Date) : List DivRecord :=
  if events.isEmpty then []
  else events.filter (fun r => decide (Date.le startD r.date) && decide (Date.le r.date endD))

/-- Embeds `_fetch_splits` from `src/public_api.py`, same retrieval-then-
filter pattern over the full split history `tk.splits`. -/
def fetchSplits (events : List SplitRecord) (startD endD : Date) : List SplitRecord :=
  if events.isEmpty then []
  else events.filter (fun r => decide (Date.le startD r.date) && decide (Date.le r.date endD))

/-- Embeds the pagination step of `get_ohlcv`: `total = len(df)`,
`lo = min(offset, total)`, `hi = min(offset + limit, total)`,
`view = df.iloc[lo:hi]`. -/
def ohlcvPage {α : Type} (df : List α) (offset limit : Nat) : List α :=
  let total := df.length
  let lo := min offset total
  let hi := min (offset + limit) total
  (df.drop lo).take (hi - lo)

/-- Follows the words of the design document: the slice of the sequence
from index `lo` (inclusive) to `hi` (exclusive), written independently of
the code as take-then-drop. -/
def sliceSpec {α : Type} (df : List α) (lo hi : Nat) : List α :=
  (df.take hi).drop lo

/-- The fixed time-to-live of the result cache (`TTLCache(..., ttl=600)`). -/
def cacheTTL : Nat := 600

/-- The fixed capacity of the result cache (`TTLCache(maxsize=256, ...)`). -/
def cacheMax : Nat := 256

/-- A `cachetools.TTLCache` state: entries in insertion order (oldest first),
each carrying its key, value and expiry instant. -/
abbrev TTLState (K V : Type) := List (K × V × Nat)

/-- Embeds `TTLCache.expire`: drop every entry whose expiry instant has been
reached (`not (time < link.expires)`). -/
def cacheExpire {K V : Type} (c : TTLState K V) (t : Nat) : TTLState K V :=
  c.filter (fun e => decide (t < e.2.2))

/-- Embeds `TTLCache.__setitem__` at instant `t`: expire stale entries,
replace any entry with the same key, evict from the oldest end while the
store would exceed `maxsize`, then append the new entry with expiry
`t + ttl` at the freshest end. -/
def cachePut {K V : Type} [DecidableEq K] (c : TTLState K V) (k : K) (v : V)
    (t : Nat) : TTLState K V :=
  let c1 := cacheExpire c t
  let c2 := c1.filter (fun e => decide (e.1 ≠ k))
  c2.drop (c2.length + 1 - cacheMax) ++ [(k, v, t + cacheTTL)]

/-- Embeds `TTLCache.__getitem__` / `__contains__` at instant `t`: a key is
present only when its entry exists and has not reached its expiry. -/
def cacheGet {K V : Type} [DecidableEq K] (c : TTLState K V) (k : K) (t : Nat) :
    Option V :=
  match c.find? (fun e => decide (e.1 = k)) with
  | some e => if t < e.2.2 then some e.2.1 else none
  | none => none

/-- The cache key tuple `(kind, symbol, start, end)` built by the handlers. -/
structure CacheKey where
  kind : PyStr
  sym : PyStr
  startS : PyStr
  endS : PyStr
deriving DecidableEq

/-- The values the shared cache stores: one data-frame shape per record
kind, all still holding `Date`-typed date columns. -/
inductive CacheVal where
  | bars : List Bar → CacheVal
  | divs : List DivRecord → CacheVal
  | splits : List SplitRecord → CacheVal
deriving DecidableEq

/-- The shared in-memory cache of `src/public_api.py`. -/
abbrev CacheState := TTLState CacheKey CacheVal

/-- Code points of the cache-kind tag of the bars handler. -/
def kindOhlcv : PyStr := strToCodes ("ohlcv")

/-- Code points of the cache-kind tag of the dividends handler. -/
def kindDiv : PyStr := strToCodes ("div")

/-- An OHLCV response record: the date already formatted to a string. -/
structure BarOut where
  date : PyStr
  openPrice : Rat
  high : Rat
  low : Rat
  close : Rat
  adjClose : Rat
  volume : Rat
deriving DecidableEq

/-- A dividend response record: the date already formatted to a string. -/
structure DivOut where
  date : PyStr
  cash : Rat
deriving DecidableEq

/-- Embeds the response shaping of `get_ohlcv`: format the date column of
the (copied) view with `strftime` and emit records. -/
def renderBars (df : List Bar) : List BarOut :=
  df.map (fun b => ⟨fmtDate b.date, b.openPrice, b.high, b.low, b.close, b.adjClose, b.volume⟩)

/-- Embeds the response shaping of `get_dividends`. -/
def renderDivs (df : List DivRecord) : List DivOut :=
  df.map (fun r => ⟨fmtDate r.date, r.cash⟩)

/-- The cache key built by `get_ohlcv` for a raw symbol and date range. -/
def ohlcvKey (symbol startS endS : PyStr) : CacheKey :=
  ⟨kindOhlcv, symbolNorm symbol, startS, endS⟩

/-- The cache key built by `get_dividends` for a raw symbol and date range. -/
def divKey (symbol startS endS : PyStr) : CacheKey :=
  ⟨kindDiv, symbolNorm symbol, startS, endS⟩

/-- Embeds the handler `get_ohlcv` from `src/public_api.py` at instant `t`.
`fetchF` stands for `_fetch_ohlcv` over the live provider. The returned
Boolean records whether the upstream fetcher was invoked. -/
def getOhlcv (fetchF : PyStr → PyStr → PyStr → List Bar) (c : CacheState)
    (symbol startS endS : PyStr) (limit offset t : Nat) :
    List BarOut × CacheState × Bool :=
  let key := ohlcvKey symbol startS endS
  match cacheGet c key t with
  | some (CacheVal.bars df) => (renderBars (ohlcvPage df offset limit), c, false)
  | _ =>
    let df := fetchF (symbolNorm symbol) startS endS
    (renderBars (ohlcvPage df offset limit), cachePut c key (CacheVal.bars df) t, true)

/-- Embeds the handler `get_dividends` from `src/public_api.py` at instant
`t`. `fetchF` stands for `_fetch_dividends` over the live provider. -/
def getDividends (fetchF : PyStr → PyStr → PyStr → List DivRecord) (c : CacheState)
    (symbol startS endS : PyStr) (t : Nat) :
    List DivOut × CacheState × Bool :=
  let key := divKey symbol startS endS
  match cacheGet c key t with
  | some (CacheVal.divs df) => (renderDivs df, c, false)
  | _ =>
    let df := fetchF (symbolNorm symbol) startS endS
    (renderDivs df, cachePut c key (CacheVal.divs df) t, true)

/-- Modelled from the spec: the unix timestamp of the midnight opening a
calendar day, for days counted from the epoch (§4.3 writes the window
bounds as `unix(start)` and `unix(end) + 86400`). -/
def unixOfDay (d : Nat) : Nat := d * 86400

/-- Modelled from the spec: the upstream time window computed by the
chart-endpoint revision of `fetchBars`, which is not among the checked-in
sources (the `src/` revision delegates windowing to the yfinance client).
Per §4.3 it is `[unix(start), unix(end) + 86400)`. -/
def fetchBarsWindow (startDay endDay : Nat) : Nat × Nat :=
  (unixOfDay startDay, unixOfDay endDay + 86400)

/-- Modelled from the spec: the windowing of the chart provider, whose
upper bound is exclusive (§4.3): a daily bar stamped at the midnight of day
`d` is returned exactly when its timestamp lies in `[lo, hi)`. -/
def providerReturnsDay (w : Nat × Nat) (d : Nat) : Prop :=
  w.1 ≤ unixOfDay d ∧ unixOfDay d < w.2

instance (w : Nat × Nat) (d : Nat) : Decidable (providerReturnsDay w d) := by
  unfold providerReturnsDay; infer_instance

/-- Modelled from the spec: the error raised by the chart-endpoint revision
of the fetcher when the upstream call reports a non-success status; absent
from `src/`, whose yfinance revision has no error path of its own.
It carries the upstream status code (§4.3, §7). -/
structure UpstreamError where
  status : Nat
deriving DecidableEq

/-- An HTTP success status, `200 ≤ s < 300`. -/
def isSuccessStatus (s : Nat) : Bool := decide (200 ≤ s) && decide (s < 300)

/-- The raw reply of the chart provider: a status code and the decoded bars. -/
structure UpstreamReply where
  status : Nat
  bars : List Bar
deriving DecidableEq

/-- Modelled from the spec: the chart-endpoint revision of `fetchBars`
applied to the reply of the provider — on a non-success status the fetch
fails with an `UpstreamError` carrying that status (§4.3). -/
def fetchBarsChart (reply : UpstreamReply) : Except UpstreamError (List Bar) :=
  if isSuccessStatus reply.status then Except.ok reply.bars
  else Except.error ⟨reply.status⟩

/-- The error shape surfaced to the HTTP client: the response status sent
to the client together with the embedded upstream status (§7). -/
structure ClientError where
  httpStatus : Nat
  upstreamStatus : Nat
deriving DecidableEq

/-- Modelled from the spec: the bars handler of the chart-endpoint
revision — cache hit, else fetch; a failed fetch is surfaced as a
502 bad-gateway response with the upstream status embedded and nothing is
stored; a successful fetch is stored (§4.4, §7). -/
def getBarsChart (reply : UpstreamReply) (c : CacheState) (key : CacheKey)
    (t : Nat) : Except ClientError (List Bar) × CacheState :=
  match cacheGet c key t with
  | some (CacheVal.bars df) => (Except.ok df, c)
  | _ =>
    match fetchBarsChart reply with
    | Except.error e => (Except.error ⟨502, e.status⟩, c)
    | Except.ok df => (Except.ok df, cachePut c key (CacheVal.bars df) t)

/-- One code point is a decimal digit. -/
def isDigitCode (c : Nat) : Bool := decide (48 ≤ c) && decide (c ≤ 57)

/-- Decimal value of a digit string (most significant first). -/
def digitsVal (s : PyStr) : Nat := s.foldl (fun acc c => 10 * acc + (c - 48)) 0

/-- Parses a nonempty all-digit code-point string. -/
def parseNatCodes (s : PyStr) : Option Nat :=
  if s ≠ [] ∧ s.all isDigitCode then some (digitsVal s) else none

/-- Splits a code-point string at its first `/` (code 47), when present. -/
def breakSlash : PyStr → Option (PyStr × PyStr)
  | [] => none
  | c :: rest =>
    if c = 47 then some ([], rest)
    else
      match breakSlash rest with
      | some p => some (c :: p.1, p.2)
      | none => none

/-- Modelled from the spec: the split-ratio parsing of the chart-endpoint
revision, absent from `src/` (whose yfinance feed already delivers numeric
ratios). A string of the form `numerator/denominator` yields the quotient;
anything malformed yields the default ratio `1.0` rather than failing
(§4.3, §7, §8). -/
def ratioFromText (s : PyStr) : Rat :=
  match breakSlash s with
  | none => 1
  | some p =>
    match parseNatCodes p.1, parseNatCodes p.2 with
    | some n, some d => if d = 0 then 1 else (n : Rat) / (d : Rat)
    | _, _ => 1

/-- Embeds the FastAPI default of the `end` query parameter of the
time-series handlers: `Query(datetime.utcnow().strftime("%Y-%m-%d"))` is
evaluated once, when `src/public_api.py` is imported, so the default is the
UTC date of the process start, frozen for the lifetime of the process. -/
def endDefault (importDay : Date) : PyStr := fmtDate importDay

/-- Embeds how a handler resolves its `end` query parameter: an omitted
parameter falls back to the frozen import-time default. -/
def resolveEnd (importDay : Date) (endParam : Option PyStr) : PyStr :=
  endParam.getD (endDefault importDay)

/-- Inserts `j` fresh entries with keys `1, …, j` (in that order), value `0`,
all at instant `0`, on top of a starting cache state. -/
def putFresh (c : TTLState Nat Nat) : Nat → TTLState Nat Nat
  | 0 => c
  | j + 1 => cachePut (putFresh c j) (j + 1) 0 0

/-- The cache state reached by storing value `7` under key `0` at instant
`0` and then performing 256 intervening insertions under fresh keys. -/
def cexState : TTLState Nat Nat := putFresh (cachePut [] 0 7 0) 256

/-- Invariant used to reason about survival of one entry in the TTL cache:
the state splits as `A ++ (k, v, ex) :: B` where no entry of the older part
`A` shares the key, and the newer part `B` is short enough that `budget`
further insertions cannot push the tracked entry to the oldest position
while the store is full. -/
def keptEntry {K V : Type} (k : K) (v : V) (ex budget : Nat) (c : TTLState K V) : Prop :=
  ∃ A B, c = A ++ (k, v, ex) :: B ∧ (∀ a ∈ A, a.1 ≠ k) ∧
    B.length + budget + 1 ≤ cacheMax ∧ c.length ≤ cacheMax

theorem symbolNorm_eq (symbol : PyStr) :
    symbolNorm symbol =
      if pyEndsWith dotTW (pyUpper (pyStrip symbol)) ||
          pyEndsWith dotTWO (pyUpper (pyStrip symbol)) then pyUpper (pyStrip symbol)
      else if firstIsDigit (pyUpper (pyStrip symbol)) then pyUpper (pyStrip symbol) ++ dotTW
      else pyUpper (pyStrip symbol) := rfl

theorem dropWhile_idem (p : Nat → Bool) (l : List Nat) :
    (l.dropWhile p).dropWhile p = l.dropWhile p := by
  induction l with
  | nil => rfl
  | cons a l ih =>
    cases h : p a with
    | false => simp [List.dropWhile_cons, h]
    | true => simp [List.dropWhile_cons, h, ih]

theorem dropWhile_head_false {p : Nat → Bool} {l : List Nat} {a : Nat} {t : List Nat}
    (h : l.dropWhile p = a :: t) : p a = false := by
  induction l with
  | nil => simp at h
  | cons b l ih =>
    cases hb : p b with
    | false =>
      rw [List.dropWhile_cons, if_neg (by simp [hb])] at h
      cases h; exact hb
    | true =>
      rw [List.dropWhile_cons, if_pos (by simp [hb])] at h
      exact ih h

theorem dropWhile_append_last (p : Nat → Bool) (a : Nat) (h : p a = false) (l : List Nat) :
    ∃ r, (l ++ [a]).dropWhile p = r ++ [a] := by
  induction l with
  | nil => exact ⟨[], by simp [List.dropWhile_cons, h]⟩
  | cons b l ih =>
    cases hb : p b with
    | false => exact ⟨b :: l, by simp [List.dropWhile_cons, hb]⟩
    | true =>
      obtain ⟨r, hr⟩ := ih
      exact ⟨r, by simp [List.dropWhile_cons, hb]; exact hr⟩

theorem rstrip_rstrip (l : List Nat) : rstrip (rstrip l) = rstrip l := by
  simp [rstrip, List.reverse_reverse, dropWhile_idem]

theorem lstrip_cons_of_not_space {a : Nat} {l : List Nat} (h : isSpaceCode a = false) :
    lstrip (a :: l) = a :: l := by
  simp [lstrip, List.dropWhile_cons, h]

theorem rstrip_append_last {a : Nat} (h : isSpaceCode a = false) (l : List Nat) :
    rstrip (l ++ [a]) = l ++ [a] := by
  simp [rstrip, List.reverse_append, List.dropWhile_cons, h]

theorem lstrip_rstrip_of_lstrip (l : List Nat) :
    lstrip (rstrip (lstrip l)) = rstrip (lstrip l) := by
  cases h : lstrip l with
  | nil => simp [rstrip, lstrip]
  | cons a t =>
    have ha : isSpaceCode a = false := dropWhile_head_false h
    obtain ⟨r, hr⟩ := dropWhile_append_last isSpaceCode a ha t.reverse
    have hra : rstrip (a :: t) = a :: r.reverse := by
      simp [rstrip, hr, List.reverse_append]
    rw [hra, lstrip_cons_of_not_space ha]

theorem pyStrip_idem (l : List Nat) : pyStrip (pyStrip l) = pyStrip l := by
  unfold pyStrip
  rw [lstrip_rstrip_of_lstrip, rstrip_rstrip]

theorem isSpaceCode_upperCode (c : Nat) : isSpaceCode (upperCode c) = isSpaceCode c := by
  unfold upperCode
  split
  · next h =>
    have h1 : isSpaceCode (c - 32) = false := by simp [isSpaceCode]; omega
    have h2 : isSpaceCode c = false := by simp [isSpaceCode]; omega
    rw [h1, h2]
  · rfl

theorem upperCode_idem (c : Nat) : upperCode (upperCode c) = upperCode c := by
  simp only [upperCode]
  by_cases h : 97 ≤ c ∧ c ≤ 122
  · rw [if_pos h, if_neg (by omega)]
  · rw [if_neg h, if_neg h]

theorem lstrip_pyUpper (l : List Nat) : lstrip (pyUpper l) = pyUpper (lstrip l) := by
  have hfun : (isSpaceCode ∘ upperCode) = isSpaceCode := funext isSpaceCode_upperCode
  simp [lstrip, pyUpper, List.dropWhile_map, hfun]

theorem rstrip_pyUpper (l : List Nat) : rstrip (pyUpper l) = pyUpper (rstrip l) := by
  have hfun : (isSpaceCode ∘ upperCode) = isSpaceCode := funext isSpaceCode_upperCode
  simp [rstrip, pyUpper, List.dropWhile_map, hfun, ← List.map_reverse]

theorem pyStrip_pyUpper (l : List Nat) : pyStrip (pyUpper l) = pyUpper (pyStrip l) := by
  unfold pyStrip
  rw [lstrip_pyUpper, rstrip_pyUpper]

theorem pyUpper_idem (l : List Nat) : pyUpper (pyUpper l) = pyUpper l := by
  have hfun : (upperCode ∘ upperCode) = upperCode := funext upperCode_idem
  simp [pyUpper, List.map_map, hfun]

theorem normCore_stable (s : PyStr) :
    pyUpper (pyStrip (pyUpper (pyStrip s))) = pyUpper (pyStrip s) := by
  rw [pyStrip_pyUpper, pyStrip_idem, pyUpper_idem]

theorem pyStrip_digit_append {c : Nat} (t : PyStr) (hc : 48 ≤ c ∧ c ≤ 57) :
    pyStrip ((c :: t) ++ dotTW) = (c :: t) ++ dotTW := by
  have hcs : isSpaceCode c = false := by simp [isSpaceCode]; omega
  have h87 : isSpaceCode 87 = false := by decide
  have hsplit : (c :: t) ++ dotTW = (c :: (t ++ [46, 84])) ++ [87] := by simp [dotTW]
  unfold pyStrip
  rw [show (c :: t) ++ dotTW = c :: (t ++ dotTW) from rfl, lstrip_cons_of_not_space hcs,
    show c :: (t ++ dotTW) = (c :: (t ++ [46, 84])) ++ [87] from by simp [dotTW]]
  exact rstrip_append_last h87 _

theorem pyUpper_append_dotTW (t : PyStr) : pyUpper (t ++ dotTW) = pyUpper t ++ dotTW := by
  unfold pyUpper
  rw [List.map_append]
  rfl

theorem endsWith_self_append (suf x : PyStr) : pyEndsWith suf (x ++ suf) = true := by
  simp [pyEndsWith]

/-- C4: `_symbol_norm` trims and uppercases its input; a result carrying a
`.TW` or `.TWO` suffix is returned unchanged; otherwise a leading digit
causes `.TW` to be appended and anything else is returned unchanged. The
function agrees with a normalizer written from the words of the design
document, is total (it is a Lean function), accepts the empty string, and
satisfies the three quoted examples. -/
theorem claim_C4_normalize :
    (∀ s : PyStr, symbolNorm s = normalizeSpec s)
    ∧ symbolNorm [] = []
    ∧ symbolNorm (strToCodes ("2330")) = strToCodes ("2330.TW")
    ∧ symbolNorm (strToCodes ("2330.TW")) = strToCodes ("2330.TW")
    ∧ symbolNorm (strToCodes ("aapl")) = strToCodes ("AAPL") := by
  refine ⟨fun s => ?_, by decide, by decide, by decide, by decide⟩
  rw [symbolNorm_eq]
  unfold normalizeSpec
  cases h : pyUpper (pyStrip s) with
  | nil => simp [firstIsDigit]
  | cons c t => simp [firstIsDigit]

/-- C8: `_symbol_norm` is idempotent, and on inputs whose stripped,
uppercased form starts with a digit and carries neither recognized suffix
it appends `.TW` exactly once. -/
theorem claim_C8_idempotent (s : PyStr) :
    symbolNorm (symbolNorm s) = symbolNorm s
    ∧ (firstIsDigit (pyUpper (pyStrip s)) = true →
       pyEndsWith dotTW (pyUpper (pyStrip s)) = false →
       pyEndsWith dotTWO (pyUpper (pyStrip s)) = false →
       symbolNorm s = pyUpper (pyStrip s) ++ dotTW) := by
  constructor
  · by_cases h1 : (pyEndsWith dotTW (pyUpper (pyStrip s)) ||
        pyEndsWith dotTWO (pyUpper (pyStrip s))) = true
    · have hs : symbolNorm s = pyUpper (pyStrip s) := by
        rw [symbolNorm_eq, if_pos h1]
      rw [hs, symbolNorm_eq, normCore_stable, if_pos h1]
    · by_cases h2 : firstIsDigit (pyUpper (pyStrip s)) = true
      · have hs : symbolNorm s = pyUpper (pyStrip s) ++ dotTW := by
          rw [symbolNorm_eq, if_neg h1, if_pos h2]
        obtain ⟨c, t, ht⟩ : ∃ c t, pyUpper (pyStrip s) = c :: t := by
          cases hu : pyUpper (pyStrip s) with
          | nil => rw [hu] at h2; simp [firstIsDigit] at h2
          | cons c t => exact ⟨c, t, rfl⟩
        have hc : 48 ≤ c ∧ c ≤ 57 := by
          rw [ht] at h2; simpa [firstIsDigit] using h2
        have hstrip : pyStrip (pyUpper (pyStrip s) ++ dotTW) = pyUpper (pyStrip s) ++ dotTW := by
          rw [ht]; exact pyStrip_digit_append t hc
        have hupper : pyUpper (pyUpper (pyStrip s) ++ dotTW) = pyUpper (pyStrip s) ++ dotTW := by
          rw [pyUpper_append_dotTW, pyUpper_idem]
        have hcond : (pyEndsWith dotTW (pyUpper (pyStrip s) ++ dotTW) ||
            pyEndsWith dotTWO (pyUpper (pyStrip s) ++ dotTW)) = true := by
          rw [endsWith_self_append]
          exact Bool.true_or _
        rw [hs, symbolNorm_eq, hstrip, hupper, if_pos hcond]
      · have hs : symbolNorm s = pyUpper (pyStrip s) := by
          rw [symbolNorm_eq, if_neg h1, if_neg h2]
        rw [hs, symbolNorm_eq, normCore_stable, if_neg h1, if_neg h2]
  · intro hd hTW hTWO
    rw [symbolNorm_eq, hTW, hTWO]
    simp [hd]

/-- C8 witness: the idempotence and the single suffix append, evaluated on
the concrete raw symbol 2330. -/
theorem claim_C8_witness :
    symbolNorm (symbolNorm (strToCodes ("2330"))) = symbolNorm (strToCodes ("2330"))
    ∧ symbolNorm (strToCodes ("2330")) = pyUpper (pyStrip (strToCodes ("2330"))) ++ dotTW :=
  ⟨(claim_C8_idempotent (strToCodes ("2330"))).1,
   (claim_C8_idempotent (strToCodes ("2330"))).2 (by decide) (by decide) (by decide)⟩

/-- C1: the upstream time window of the chart-endpoint revision of
`fetchBars` has lower bound `unix(start)` and upper bound
`unix(end) + 86400`; against the exclusive upper bound of the provider this
window returns a daily bar exactly when its day lies in the closed interval
`[start, end]` — in particular the requested end date is included. The
fetcher is modelled from the design document (§4.3), as the revision that
computes this window is not among the checked-in sources. -/
theorem claim_C1_window (startDay endDay d : Nat) :
    (fetchBarsWindow startDay endDay).1 = unixOfDay startDay
    ∧ (fetchBarsWindow startDay endDay).2 = unixOfDay endDay + 86400
    ∧ (providerReturnsDay (fetchBarsWindow startDay endDay) d ↔ startDay ≤ d ∧ d ≤ endDay) := by
  refine ⟨rfl, rfl, ?_⟩
  simp only [providerReturnsDay, fetchBarsWindow, unixOfDay]
  omega

/-- C5: the pagination of `get_ohlcv` returns the slice of the cached
sequence from `min(offset, N)` to `min(offset + limit, N)`; an offset at or
past the end yields the empty sequence, and offset 0 with a limit at least
N yields all N records. Totality of `ohlcvPage` is the no-out-of-range
property. -/
theorem claim_C5_pagination (df : List Bar) (offset limit : Nat)
    (hlo : 1 ≤ limit) (hhi : limit ≤ 20000) :
    ohlcvPage df offset limit
      = sliceSpec df (min offset df.length) (min (offset + limit) df.length)
    ∧ (df.length ≤ offset → ohlcvPage df offset limit = [])
    ∧ (offset = 0 → df.length ≤ limit → ohlcvPage df offset limit = df) := by
  refine ⟨?_, ?_, ?_⟩
  · simp only [ohlcvPage, sliceSpec]
    rw [List.drop_take]
  · intro h
    simp only [ohlcvPage]
    rw [Nat.min_eq_right h, List.drop_length]
    simp
  · intro h0 hlim
    subst h0
    simp only [ohlcvPage]
    have h1 : min (0 + limit) df.length = df.length := by omega
    have h2 : min 0 df.length = 0 := by omega
    rw [h1, h2]
    simp [List.take_length]

/-- C5 witness: the pagination theorem applied to a concrete two-bar frame
with offset 1 and limit 5. -/
theorem claim_C5_pagination_witness :
    ohlcvPage [(⟨⟨2024, 1, 2⟩, 1, 1, 1, 1, 1, 1⟩ : Bar), ⟨⟨2024, 1, 3⟩, 2, 2, 2, 2, 2, 2⟩] 1 5
      = sliceSpec [(⟨⟨2024, 1, 2⟩, 1, 1, 1, 1, 1, 1⟩ : Bar), ⟨⟨2024, 1, 3⟩, 2, 2, 2, 2, 2, 2⟩]
          (min 1 2) (min (1 + 5) 2)
    ∧ ((2 : Nat) ≤ 1 →
        ohlcvPage [(⟨⟨2024, 1, 2⟩, 1, 1, 1, 1, 1, 1⟩ : Bar), ⟨⟨2024, 1, 3⟩, 2, 2, 2, 2, 2, 2⟩] 1 5 = [])
    ∧ ((1 : Nat) = 0 → (2 : Nat) ≤ 5 →
        ohlcvPage [(⟨⟨2024, 1, 2⟩, 1, 1, 1, 1, 1, 1⟩ : Bar), ⟨⟨2024, 1, 3⟩, 2, 2, 2, 2, 2, 2⟩] 1 5
          = [⟨⟨2024, 1, 2⟩, 1, 1, 1, 1, 1, 1⟩, ⟨⟨2024, 1, 3⟩, 2, 2, 2, 2, 2, 2⟩]) :=
  claim_C5_pagination _ 1 5 (by decide) (by decide)

/-- C6: `_fetch_dividends` and `_fetch_splits` filter the full event
history delivered by the provider to the closed interval `[start, end]`: a
record is in the returned frame exactly when it is among the retrieved
events and its date lies between the two bounds inclusively. -/
theorem claim_C6_filter (divs : List DivRecord) (sps : List SplitRecord) (startD endD : Date) :
    (∀ r : DivRecord, r ∈ fetchDividends divs startD endD ↔
      r ∈ divs ∧ Date.le startD r.date ∧ Date.le r.date endD)
    ∧ (∀ r : SplitRecord, r ∈ fetchSplits sps startD endD ↔
      r ∈ sps ∧ Date.le startD r.date ∧ Date.le r.date endD) := by
  constructor
  · intro r
    unfold fetchDividends
    by_cases he : divs.isEmpty
    · rw [if_pos he]
      rw [List.isEmpty_iff] at he
      subst he
      simp
    · rw [if_neg he]
      simp [List.mem_filter]
  · intro r
    unfold fetchSplits
    by_cases he : sps.isEmpty
    · rw [if_pos he]
      rw [List.isEmpty_iff] at he
      subst he
      simp
    · rw [if_neg he]
      simp [List.mem_filter]

theorem breakSlash_digits {a : PyStr} (b : PyStr) (ha : ∀ c ∈ a, isDigitCode c = true) :
    breakSlash (a ++ 47 :: b) = some (a, b) := by
  induction a with
  | nil => simp [breakSlash]
  | cons c a ih =>
    have hc : isDigitCode c = true := ha c (by simp)
    have hne : ¬ c = 47 := by
      simp [isDigitCode] at hc
      omega
    rw [List.cons_append, breakSlash, if_neg hne, ih (fun x hx => ha x (by simp [hx]))]

theorem breakSlash_none {s : PyStr} (h : ∀ c ∈ s, c ≠ 47) : breakSlash s = none := by
  induction s with
  | nil => rfl
  | cons c s ih =>
    rw [breakSlash, if_neg (h c (by simp)), ih (fun x hx => h x (by simp [hx]))]

theorem parseNatCodes_digits {a : PyStr} (h0 : a ≠ [])
    (ha : ∀ c ∈ a, isDigitCode c = true) : parseNatCodes a = some (digitsVal a) := by
  unfold parseNatCodes
  rw [if_pos ⟨h0, List.all_eq_true.mpr ha⟩]

theorem breakSlash_sound {s : PyStr} {p : PyStr × PyStr}
    (h : breakSlash s = some p) : s = p.1 ++ 47 :: p.2 := by
  induction s generalizing p with
  | nil => simp [breakSlash] at h
  | cons c rest ih =>
    rw [breakSlash] at h
    by_cases hc : c = 47
    · rw [if_pos hc] at h
      cases h
      subst hc
      rfl
    · rw [if_neg hc] at h
      cases hq : breakSlash rest with
      | none => rw [hq] at h; cases h
      | some q =>
        rw [hq] at h
        cases h
        rw [ih hq]
        rfl

theorem parseNatCodes_some {a : PyStr} {n : Nat} (h : parseNatCodes a = some n) :
    a ≠ [] ∧ (∀ c ∈ a, isDigitCode c = true) ∧ n = digitsVal a := by
  unfold parseNatCodes at h
  split at h
  · next hcond =>
    cases h
    exact ⟨hcond.1, List.all_eq_true.mp hcond.2, rfl⟩
  · cases h

/-- C3: the split-ratio parsing of the chart-endpoint revision (modelled
from the design document, §4.3): a digit string of the form
`numerator/denominator` with nonzero denominator parses to the quotient,
and every other string — slash-free, empty-sided, non-digit or
zero-denominator, with or without a slash — falls back to the default
ratio `1.0` instead of failing; the quoted examples and several malformed
slash-carrying shapes are evaluated concretely. -/
theorem claim_C3_ratio :
    (∀ a b : PyStr, a ≠ [] → b ≠ [] →
      (∀ c ∈ a, isDigitCode c = true) → (∀ c ∈ b, isDigitCode c = true) →
      digitsVal b ≠ 0 →
      ratioFromText (a ++ 47 :: b) = (digitsVal a : Rat) / (digitsVal b : Rat))
    ∧ (∀ s : PyStr,
        (¬ ∃ a b : PyStr, s = a ++ 47 :: b ∧ a ≠ [] ∧ b ≠ [] ∧
          (∀ c ∈ a, isDigitCode c = true) ∧ (∀ c ∈ b, isDigitCode c = true) ∧
          digitsVal b ≠ 0) →
        ratioFromText s = 1)
    ∧ ratioFromText (strToCodes ("4/1")) = 4
    ∧ ratioFromText (strToCodes ("garbage")) = 1
    ∧ ratioFromText (strToCodes ("4/x")) = 1
    ∧ ratioFromText (strToCodes ("4/0")) = 1
    ∧ ratioFromText (strToCodes ("4/")) = 1
    ∧ ratioFromText (strToCodes ("/1")) = 1
    ∧ ratioFromText (strToCodes ("1/2/3")) = 1 := by
  refine ⟨?_, ?_, ?_, by decide, by decide, by decide, by decide, by decide, by decide⟩
  · intro a b ha0 hb0 ha hb hbv
    rw [ratioFromText, breakSlash_digits b ha]
    simp only
    rw [parseNatCodes_digits ha0 ha, parseNatCodes_digits hb0 hb]
    simp only
    rw [if_neg hbv]
  · intro s hno
    cases hbs : breakSlash s with
    | none => rw [ratioFromText, hbs]
    | some p =>
      have hs := breakSlash_sound hbs
      rw [ratioFromText, hbs]
      show (match parseNatCodes p.1, parseNatCodes p.2 with
        | some n, some d => if d = 0 then (1 : Rat) else (n : Rat) / (d : Rat)
        | _, _ => (1 : Rat)) = (1 : Rat)
      cases hpa : parseNatCodes p.1 with
      | none => rfl
      | some n =>
        cases hpb : parseNatCodes p.2 with
        | none => rfl
        | some d =>
          simp only
          by_cases hd : d = 0
          · rw [if_pos hd]
          · exfalso
            obtain ⟨ha0, hadig, hna⟩ := parseNatCodes_some hpa
            obtain ⟨hb0, hbdig, hnb⟩ := parseNatCodes_some hpb
            exact hno ⟨p.1, p.2, hs, ha0, hb0, hadig, hbdig, by rw [← hnb]; exact hd⟩
  · have h : strToCodes ("4/1") = [52, 47, 49] := by decide
    rw [h]
    norm_num [ratioFromText, breakSlash, parseNatCodes, isDigitCode, digitsVal]

/-- C3 witness: the parsing theorem applied to the digit string 7/2, and
the fallback applied to the string g, whose lack of a well-formed
decomposition is discharged by hand. -/
theorem claim_C3_ratio_witness :
    ratioFromText ([55] ++ 47 :: [50]) = ((digitsVal [55] : Rat) / (digitsVal [50] : Rat))
    ∧ ratioFromText [103] = 1 :=
  ⟨claim_C3_ratio.1 [55] [50] (by decide) (by decide) (by decide) (by decide) (by decide),
   claim_C3_ratio.2.1 [103] (by
    rintro ⟨a, b, heq, -, -, -, -, -⟩
    cases a with
    | nil => simp at heq
    | cons c t => simp at heq)⟩

/-- C2: when the upstream call reports a non-success status the fetch of
the chart-endpoint revision (modelled from the design document, §4.3 and
§7) fails with an UpstreamError carrying that status; the handler surfaces
it as a 502 bad-gateway response with the upstream status embedded and the
cache state is returned unchanged — nothing is stored under the request
key. -/
theorem claim_C2_upstream_error (reply : UpstreamReply) (c : CacheState) (key : CacheKey)
    (t : Nat) (hfail : isSuccessStatus reply.status = false)
    (hmiss : cacheGet c key t = none) :
    fetchBarsChart reply = Except.error ⟨reply.status⟩
    ∧ getBarsChart reply c key t = (Except.error ⟨502, reply.status⟩, c) := by
  have hfetch : fetchBarsChart reply = Except.error ⟨reply.status⟩ := by
    unfold fetchBarsChart
    rw [if_neg (by simp [hfail])]
  refine ⟨hfetch, ?_⟩
  unfold getBarsChart
  rw [hmiss, hfetch]

/-- C2 witness: a miss on the empty cache with upstream status 500 yields
the 502 response with status 500 embedded, and the cache stays empty. -/
theorem claim_C2_upstream_error_witness :
    fetchBarsChart ⟨500, []⟩ = Except.error ⟨500⟩
    ∧ getBarsChart ⟨500, []⟩ [] (ohlcvKey (strToCodes ("AAPL")) (strToCodes ("2024-01-01"))
        (strToCodes ("2024-01-05"))) 0 = (Except.error ⟨502, 500⟩, []) :=
  claim_C2_upstream_error ⟨500, []⟩ [] _ 0 (by decide) rfl

theorem find?_key_front {K V : Type} [DecidableEq K] {k : K} (A : TTLState K V)
    (e : K × V × Nat) (B : TTLState K V) (hA : ∀ a ∈ A, a.1 ≠ k) (he : e.1 = k) :
    List.find? (fun x => decide (x.1 = k)) (A ++ e :: B) = some e := by
  induction A with
  | nil => simp [List.find?_cons, he]
  | cons a A ih =>
    have ha : ¬ (a.1 = k) := hA a (by simp)
    have hd : (decide (a.1 = k)) = false := by simp [ha]
    rw [List.cons_append, List.find?_cons, hd]
    exact ih (fun x hx => hA x (by simp [hx]))

theorem mem_cachePut_front_ne {K V : Type} [DecidableEq K] (c : TTLState K V) (k : K)
    (t : Nat) :
    ∀ a ∈ (((cacheExpire c t).filter (fun e => decide (e.1 ≠ k))).drop
        (((cacheExpire c t).filter (fun e => decide (e.1 ≠ k))).length + 1 - cacheMax)),
      a.1 ≠ k := by
  intro a ha
  have h1 := List.mem_of_mem_drop ha
  have h2 := (List.mem_filter.mp h1).2
  simpa using h2

theorem cacheGet_cachePut_self {K V : Type} [DecidableEq K] (c : TTLState K V) (k : K)
    (v : V) (t tr : Nat) (h : tr < t + cacheTTL) :
    cacheGet (cachePut c k v t) k tr = some v := by
  simp only [cachePut, cacheGet]
  rw [find?_key_front _ (k, v, t + cacheTTL) [] (mem_cachePut_front_ne c k t) rfl]
  simp [h]

/-- C9: date fields are formatted to strings only on the copy returned at
the handler boundary. On a cache hit the handlers of `src/public_api.py`
leave the cache exactly as it was; on a miss they store the raw fetched
frame, whose date column still holds `Date` values, while the response
carries the `strftime`-formatted copy — reading the key back after the
request yields the raw frame, not the formatted records. -/
theorem claim_C9_cache_keeps_dates (fetchD : PyStr → PyStr → PyStr → List DivRecord)
    (fetchB : PyStr → PyStr → PyStr → List Bar) (c : CacheState)
    (symbol startS endS : PyStr) (limit offset t : Nat) :
    (∀ df0, cacheGet c (divKey symbol startS endS) t = some (CacheVal.divs df0) →
      getDividends fetchD c symbol startS endS t = (renderDivs df0, c, false))
    ∧ (cacheGet c (divKey symbol startS endS) t = none →
        (getDividends fetchD c symbol startS endS t).2.1
          = cachePut c (divKey symbol startS endS)
              (CacheVal.divs (fetchD (symbolNorm symbol) startS endS)) t
        ∧ cacheGet (getDividends fetchD c symbol startS endS t).2.1
              (divKey symbol startS endS) t
          = some (CacheVal.divs (fetchD (symbolNorm symbol) startS endS))
        ∧ (getDividends fetchD c symbol startS endS t).1
          = renderDivs (fetchD (symbolNorm symbol) startS endS))
    ∧ (∀ df0, cacheGet c (ohlcvKey symbol startS endS) t = some (CacheVal.bars df0) →
      getOhlcv fetchB c symbol startS endS limit offset t
        = (renderBars (ohlcvPage df0 offset limit), c, false))
    ∧ (cacheGet c (ohlcvKey symbol startS endS) t = none →
        cacheGet (getOhlcv fetchB c symbol startS endS limit offset t).2.1
            (ohlcvKey symbol startS endS) t
          = some (CacheVal.bars (fetchB (symbolNorm symbol) startS endS))) := by
  have httl : t < t + cacheTTL := by
    unfold cacheTTL
    omega
  refine ⟨?_, ?_, ?_, ?_⟩
  · intro df0 hhit
    simp [getDividends, hhit]
  · intro hmiss
    refine ⟨by simp [getDividends, hmiss], ?_, by simp [getDividends, hmiss]⟩
    simp only [getDividends, hmiss]
    exact cacheGet_cachePut_self c _ _ t t httl
  · intro df0 hhit
    simp [getOhlcv, hhit]
  · intro hmiss
    simp only [getOhlcv, hmiss]
    exact cacheGet_cachePut_self c _ _ t t httl

/-- C9 witness: both handlers on the empty cache (a miss) store the raw
frames and answer with formatted copies. -/
theorem claim_C9_cache_keeps_dates_witness :
    (getDividends (fun _ _ _ => [⟨⟨2024, 1, 2⟩, 3⟩]) [] (strToCodes ("VYM"))
        (strToCodes ("2024-01-01")) (strToCodes ("2024-01-05")) 0).2.1
      = cachePut [] (divKey (strToCodes ("VYM")) (strToCodes ("2024-01-01"))
          (strToCodes ("2024-01-05")))
          (CacheVal.divs [⟨⟨2024, 1, 2⟩, 3⟩]) 0
    ∧ cacheGet (getDividends (fun _ _ _ => [⟨⟨2024, 1, 2⟩, 3⟩]) [] (strToCodes ("VYM"))
          (strToCodes ("2024-01-01")) (strToCodes ("2024-01-05")) 0).2.1
        (divKey (strToCodes ("VYM")) (strToCodes ("2024-01-01")) (strToCodes ("2024-01-05"))) 0
      = some (CacheVal.divs [⟨⟨2024, 1, 2⟩, 3⟩])
    ∧ (getDividends (fun _ _ _ => [⟨⟨2024, 1, 2⟩, 3⟩]) [] (strToCodes ("VYM"))
        (strToCodes ("2024-01-01")) (strToCodes ("2024-01-05")) 0).1
      = renderDivs [⟨⟨2024, 1, 2⟩, 3⟩] :=
  (claim_C9_cache_keeps_dates (fun _ _ _ => [⟨⟨2024, 1, 2⟩, 3⟩]) (fun _ _ _ => []) []
    (strToCodes ("VYM")) (strToCodes ("2024-01-01")) (strToCodes ("2024-01-05"))
    5000 0 0).2.1 rfl

theorem keptEntry_cachePut {K V : Type} [DecidableEq K] {k : K} {v : V} {ex budget : Nat}
    {c : TTLState K V} (h : keptEntry k v ex (budget + 1) c) {k1 : K} {v1 : V} {t1 : Nat}
    (hk : k1 ≠ k) (ht : t1 < ex) : keptEntry k v ex budget (cachePut c k1 v1 t1) := by
  obtain ⟨A, B, hc, hA, hB, hlen⟩ := h
  subst hc
  have hqe : (fun (e : K × V × Nat) => decide (t1 < e.2.2)) (k, v, ex) = true := by
    simp [ht]
  have hre : (fun (e : K × V × Nat) => decide (e.1 ≠ k1)) (k, v, ex) = true := by
    simp
    exact Ne.symm hk
  have h1 : List.filter (fun (e : K × V × Nat) => decide (t1 < e.2.2)) (A ++ (k, v, ex) :: B)
      = List.filter (fun e => decide (t1 < e.2.2)) A ++ (k, v, ex) ::
          List.filter (fun e => decide (t1 < e.2.2)) B := by
    rw [List.filter_append, List.filter_cons, if_pos hqe]
  set A2 := List.filter (fun (e : K × V × Nat) => decide (e.1 ≠ k1))
      (List.filter (fun e => decide (t1 < e.2.2)) A) with hA2def
  set B2 := List.filter (fun (e : K × V × Nat) => decide (e.1 ≠ k1))
      (List.filter (fun e => decide (t1 < e.2.2)) B) with hB2def
  have h2 : List.filter (fun (e : K × V × Nat) => decide (e.1 ≠ k1))
      (List.filter (fun e => decide (t1 < e.2.2)) (A ++ (k, v, ex) :: B))
      = A2 ++ (k, v, ex) :: B2 := by
    rw [h1, List.filter_append, List.filter_cons, if_pos hre]
  have hA2len : A2.length ≤ A.length :=
    le_trans (List.length_filter_le _ _) (List.length_filter_le _ _)
  have hB2len : B2.length ≤ B.length :=
    le_trans (List.length_filter_le _ _) (List.length_filter_le _ _)
  have hABlen : (A ++ (k, v, ex) :: B).length = A.length + B.length + 1 := by
    simp
    omega
  have hdrople : (A2 ++ (k, v, ex) :: B2).length + 1 - cacheMax ≤ A2.length := by
    simp only [List.length_append, List.length_cons, cacheMax]
    unfold cacheMax at hB
    omega
  have hdrop : (A2 ++ (k, v, ex) :: B2).drop ((A2 ++ (k, v, ex) :: B2).length + 1 - cacheMax)
      = A2.drop ((A2 ++ (k, v, ex) :: B2).length + 1 - cacheMax) ++ (k, v, ex) :: B2 :=
    List.drop_append_of_le_length hdrople
  refine ⟨A2.drop ((A2 ++ (k, v, ex) :: B2).length + 1 - cacheMax),
    B2 ++ [(k1, v1, t1 + cacheTTL)], ?_, ?_, ?_, ?_⟩
  · simp only [cachePut, cacheExpire, h2, hdrop]
    simp [List.append_assoc]
  · intro a ha
    have h3 := List.mem_of_mem_drop ha
    rw [hA2def] at h3
    have h4 := (List.mem_filter.mp h3).1
    have h5 := (List.mem_filter.mp h4).1
    exact hA a h5
  · simp only [List.length_append, List.length_singleton]
    unfold cacheMax at hB ⊢
    omega
  · simp only [cachePut, cacheExpire, h2, hdrop]
    simp only [List.length_append, List.length_drop, List.length_cons,
      List.length_singleton, List.length_nil]
    unfold cacheMax at hB hlen ⊢
    omega

theorem keptEntry_cachePut_self {K V : Type} [DecidableEq K] (c : TTLState K V) (k : K)
    (v : V) (t0 budget : Nat) (hb : budget + 1 ≤ cacheMax) :
    keptEntry k v (t0 + cacheTTL) budget (cachePut c k v t0) := by
  refine ⟨((cacheExpire c t0).filter (fun e => decide (e.1 ≠ k))).drop
      (((cacheExpire c t0).filter (fun e => decide (e.1 ≠ k))).length + 1 - cacheMax),
    [], rfl, mem_cachePut_front_ne c k t0, by simpa using hb, ?_⟩
  simp only [cachePut, cacheExpire, List.length_append, List.length_drop,
    List.length_cons, List.length_singleton, List.length_nil]
  unfold cacheMax
  omega

theorem keptEntry_foldl {K V : Type} [DecidableEq K] {k : K} {v : V} {ex : Nat} :
    ∀ (ops : List (K × V × Nat)) (c : TTLState K V) (budget : Nat),
      keptEntry k v ex (ops.length + budget) c →
      (∀ o ∈ ops, o.1 ≠ k) → (∀ o ∈ ops, o.2.2 < ex) →
      keptEntry k v ex budget (ops.foldl (fun s o => cachePut s o.1 o.2.1 o.2.2) c) := by
  intro ops
  induction ops with
  | nil =>
    intro c budget h _ _
    simpa using h
  | cons o ops ih =>
    intro c budget h hk ht
    rw [List.foldl_cons]
    have hrew : (o :: ops).length + budget = (ops.length + budget) + 1 := by
      simp
      omega
    rw [hrew] at h
    exact ih _ _ (keptEntry_cachePut h (hk o (by simp)) (ht o (by simp)))
      (fun x hx => hk x (by simp [hx])) (fun x hx => ht x (by simp [hx]))

theorem keptEntry_cacheGet {K V : Type} [DecidableEq K] {k : K} {v : V} {ex budget : Nat}
    {c : TTLState K V} (h : keptEntry k v ex budget c) {tr : Nat} (htr : tr < ex) :
    cacheGet c k tr = some v := by
  obtain ⟨A, B, hc, hA, -, -⟩ := h
  subst hc
  unfold cacheGet
  rw [find?_key_front A (k, v, ex) B hA rfl]
  simp [htr]

/-- C7 (amended): a value stored under a key survives in the TTL cache
through any sequence of fewer than 256 intervening insertions under other
keys, all happening before the expiry of the tracked entry, and a read
before TTL expiry returns exactly the stored value; and the bars handler,
re-invoked with the same raw symbol and date range within the TTL window of
a miss-and-store, serves the stored frame without invoking the upstream
fetcher again. -/
theorem claim_C7_roundtrip :
    (∀ (K V : Type) [DecidableEq K] (c : TTLState K V) (k : K) (v : V) (t0 : Nat)
      (ops : List (K × V × Nat)) (tr : Nat),
      c.length ≤ cacheMax →
      (∀ o ∈ ops, o.1 ≠ k) →
      ops.length < cacheMax →
      (∀ o ∈ ops, o.2.2 < t0 + cacheTTL) →
      tr < t0 + cacheTTL →
      cacheGet (ops.foldl (fun s o => cachePut s o.1 o.2.1 o.2.2) (cachePut c k v t0)) k tr
        = some v)
    ∧ (∀ (fetchF : PyStr → PyStr → PyStr → List Bar) (c : CacheState)
        (symbol startS endS : PyStr) (limit offset t t2 : Nat),
        cacheGet c (ohlcvKey symbol startS endS) t = none →
        t2 < t + cacheTTL →
        getOhlcv fetchF ((getOhlcv fetchF c symbol startS endS limit offset t).2.1)
            symbol startS endS limit offset t2
          = ((getOhlcv fetchF c symbol startS endS limit offset t).1,
             (getOhlcv fetchF c symbol startS endS limit offset t).2.1, false)) := by
  constructor
  · intro K V instDE c k v t0 ops tr hc hops hn htimes htr
    have hb : ops.length + 1 ≤ cacheMax := hn
    have h0 : keptEntry k v (t0 + cacheTTL) ops.length (cachePut c k v t0) :=
      keptEntry_cachePut_self c k v t0 ops.length hb
    have h1 : keptEntry k v (t0 + cacheTTL) 0
        (ops.foldl (fun s o => cachePut s o.1 o.2.1 o.2.2) (cachePut c k v t0)) :=
      keptEntry_foldl ops _ 0 (by simpa using h0) hops htimes
    exact keptEntry_cacheGet h1 htr
  · intro fetchF c symbol startS endS limit offset t t2 hmiss ht2
    have hhit := cacheGet_cachePut_self c (ohlcvKey symbol startS endS)
      (CacheVal.bars (fetchF (symbolNorm symbol) startS endS)) t t2 ht2
    simp [getOhlcv, hmiss, hhit]

/-- C7 witness: the survival theorem applied to a store of 7 under key 0 on
the empty cache with one intervening fresh insertion and a read at instant
10; and the no-refetch property of the bars handler on a concrete miss. -/
theorem claim_C7_roundtrip_witness :
    cacheGet (List.foldl (fun s o => cachePut s o.1 o.2.1 o.2.2)
        (cachePut ([] : TTLState Nat Nat) 0 7 0) [(1, 1, 5)]) 0 10 = some 7
    ∧ getOhlcv (fun _ _ _ => [])
        ((getOhlcv (fun _ _ _ => []) [] (strToCodes ("AAPL")) (strToCodes ("2024-01-01"))
            (strToCodes ("2024-01-05")) 5000 0 0).2.1)
        (strToCodes ("AAPL")) (strToCodes ("2024-01-01")) (strToCodes ("2024-01-05")) 5000 0 1
      = ((getOhlcv (fun _ _ _ => []) [] (strToCodes ("AAPL")) (strToCodes ("2024-01-01"))
            (strToCodes ("2024-01-05")) 5000 0 0).1,
         (getOhlcv (fun _ _ _ => []) [] (strToCodes ("AAPL")) (strToCodes ("2024-01-01"))
            (strToCodes ("2024-01-05")) 5000 0 0).2.1, false) :=
  ⟨claim_C7_roundtrip.1 Nat Nat [] 0 7 0 [(1, 1, 5)] 10 (by decide) (by decide) (by decide)
      (by decide) (by decide),
   claim_C7_roundtrip.2 (fun _ _ _ => []) [] (strToCodes ("AAPL")) (strToCodes ("2024-01-01"))
      (strToCodes ("2024-01-05")) 5000 0 0 1 rfl (by decide)⟩

theorem sState_expire (j : Nat) :
    cacheExpire ((0, 7, 600) :: (List.range j).map (fun i => (i + 1, 0, 600))) 0
      = (0, 7, 600) :: (List.range j).map (fun i => (i + 1, 0, 600)) := by
  apply List.filter_eq_self.mpr
  intro e he
  simp only [List.mem_cons, List.mem_map, List.mem_range] at he
  rcases he with rfl | ⟨i, hi, rfl⟩ <;> simp

theorem sState_keyfilter (j m : Nat) (hj : j < m) (hm : 0 < m) :
    ((0, 7, 600) :: (List.range j).map (fun i => (i + 1, 0, 600))).filter
        (fun e => decide (e.1 ≠ m))
      = (0, 7, 600) :: (List.range j).map (fun i => (i + 1, 0, 600)) := by
  apply List.filter_eq_self.mpr
  intro e he
  simp only [List.mem_cons, List.mem_map, List.mem_range] at he
  rcases he with rfl | ⟨i, hi, rfl⟩ <;> simp <;> omega

theorem putFresh_eq : ∀ j : Nat, j ≤ 255 →
    putFresh (cachePut [] 0 7 0) j
      = (0, 7, 600) :: (List.range j).map (fun i => (i + 1, 0, 600)) := by
  intro j
  induction j with
  | zero => intro _; decide
  | succ j ih =>
    intro hj
    have hS := ih (by omega)
    show cachePut (putFresh (cachePut [] 0 7 0) j) (j + 1) 0 0 = _
    rw [hS]
    simp only [cachePut]
    rw [sState_expire j, sState_keyfilter j (j + 1) (by omega) (by omega)]
    have hlen : ((0, 7, 600) :: (List.range j).map (fun i => (i + 1, 0, 600))).length
        = j + 1 := by
      simp
    rw [hlen, show j + 1 + 1 - cacheMax = 0 from by unfold cacheMax; omega, List.drop_zero]
    simp [List.range_succ, cacheTTL]

theorem cexState_eq :
    cexState = (List.range 255).map (fun i => (i + 1, 0, 600)) ++ [(256, 0, 600)] := by
  have hS := putFresh_eq 255 (by omega)
  show cachePut (putFresh (cachePut [] 0 7 0) 255) 256 0 0 = _
  rw [hS]
  simp only [cachePut]
  rw [sState_expire 255, show (256 : Nat) = 255 + 1 from rfl,
    sState_keyfilter 255 (255 + 1) (by omega) (by omega)]
  have hlen : ((0, 7, 600) :: (List.range 255).map (fun i => (i + 1, 0, 600))).length
      = 256 := by
    simp
  rw [hlen, show (256 : Nat) + 1 - cacheMax = 1 from by unfold cacheMax; omega]
  simp [cacheTTL]

/-- C7 counterexample: the claim as stated fails at its boundary. Storing 7
under key 0 and performing exactly 256 intervening insertions under fresh
keys — allowed by "without more than 256 intervening insertions" — evicts
the entry, so the read within TTL misses instead of returning 7; and an
intervening insertion under the same key overwrites the stored value, so
the read returns the newer value 9 rather than the stored 7. -/
theorem claim_C7_counterexample :
    cacheGet cexState 0 0 = none
    ∧ cacheGet (cachePut (cachePut ([] : TTLState Nat Nat) 0 7 0) 0 9 0) 0 0 = some 9 := by
  constructor
  · rw [cexState_eq]
    unfold cacheGet
    have hnone : List.find? (fun (e : Nat × Nat × Nat) => decide (e.1 = 0))
        ((List.range 255).map (fun i => (i + 1, 0, 600)) ++ [(256, 0, 600)]) = none := by
      apply List.find?_eq_none.mpr
      intro x hx
      simp only [List.mem_append, List.mem_map, List.mem_range, List.mem_singleton] at hx
      rcases hx with ⟨i, hi, rfl⟩ | rfl <;> simp
    rw [hnone]
  · decide

/-- C10: the `Query(datetime.utcnow().strftime(...))` default of the `end`
parameter is evaluated once at module import, so a request handled on a
later UTC day that omits `end` still receives the import-day date — not
the date of the day the request is handled. Concretely: for a process
imported on 2026-02-01 a request handled on 2026-02-02 resolves `end` to
2026-02-01, while an explicitly passed `end` is honoured. -/
theorem claim_C10_end_default :
    resolveEnd ⟨2026, 2, 1⟩ none = fmtDate ⟨2026, 2, 1⟩
    ∧ resolveEnd ⟨2026, 2, 1⟩ none ≠ fmtDate ⟨2026, 2, 2⟩
    ∧ resolveEnd ⟨2026, 2, 1⟩ (some (fmtDate ⟨2026, 2, 2⟩)) = fmtDate ⟨2026, 2, 2⟩ :=
  ⟨rfl, by decide, rfl⟩

example : ratioFromText (strToCodes ("4/1")) = 4 := by
  have h : strToCodes ("4/1") = [52, 47, 49] := by decide
  rw [h]
  norm_num [ratioFromText, breakSlash, parseNatCodes, isDigitCode, digitsVal]
example : ratioFromText (strToCodes ("garbage")) = 1 := by decide
example : ratioFromText (strToCodes ("7/2")) = 7 / 2 := by
  have h : strToCodes ("7/2") = [55, 47, 50] := by decide
  rw [h]
  norm_num [ratioFromText, breakSlash, parseNatCodes, isDigitCode, digitsVal]
example : fmtDate ⟨2024, 1, 5⟩ = strToCodes ("2024-01-05") := by decide
example : cacheGet (cachePut ([] : TTLState Nat Nat) 0 7 0) 0 10 = some 7 := by decide
example : cacheGet (cachePut ([] : TTLState Nat Nat) 0 7 0) 0 600 = none := by decide


example : symbolNorm (strToCodes ("2330")) = strToCodes ("2330.TW") := by decide
example : symbolNorm (strToCodes ("2330.TW")) = strToCodes ("2330.TW") := by decide
example : symbolNorm (strToCodes ("aapl")) = strToCodes ("AAPL") := by decide
example : symbolNorm (strToCodes (" 00878.two ")) = strToCodes ("00878.TWO") := by decide
example : symbolNorm [] = [] := by decide
